import Mathlib

/-!
Verification of the n2n-admin real-time network-state aggregation subsystem.

The Go source (backend/main.go, backend/utils/n2n_utils.go) is embedded
shallowly: maps protected by a mutex become association lists with unique
keys (one definition per Go function, keeping the source names), `time.Time`
and `time.Duration` become integer nanosecond counts, and the two external
effects (the UDP transport of the management client and the HTTP GeoIP
lookup) become explicit parameters describing the observed outcome of the
call.  All definitions are executable.
-/

namespace N2N

/-- Time instants and durations are modelled as nanosecond counts, matching
Go `time.Time`/`time.Duration` arithmetic (`Before` is `<`, `Sub` is `-`). -/
abbrev Time := Int

/-- Character-list test that `p` starts the list `s` (used to model
`strings.HasPrefix` on the underlying bytes; all strings involved are ASCII). -/
def listPre : List Char → List Char → Bool
  | [], _ => true
  | _ :: _, [] => false
  | a :: as, b :: bs => a == b && listPre as bs

/-- Model of Go `strings.HasPrefix p s` (arguments: pattern, then string). -/
def strPre (p s : String) : Bool :=
  listPre p.data s.data

/-- Helper for `strings.Split` with a one-character separator. -/
def splitCharAux (c : Char) : List Char → List Char → List (List Char)
  | [], acc => [acc.reverse]
  | x :: xs, acc =>
    if x = c then acc.reverse :: splitCharAux c xs []
    else splitCharAux c xs (x :: acc)

/-- Model of Go `strings.Split s sep` for a one-character separator `sep`. -/
def splitChar (c : Char) (s : String) : List String :=
  (splitCharAux c s.data []).map String.mk

/-- Model of Go `strings.Contains` restricted to the list level:
does `needle` occur contiguously inside the list? -/
def containsSubList (needle : List Char) : List Char → Bool
  | [] => needle.isEmpty
  | x :: xs => listPre needle (x :: xs) || containsSubList needle xs

/-- Model of Go `strings.Contains s sub`. -/
def strContains (s sub : String) : Bool :=
  containsSubList sub.data s.data

/-- ASCII whitespace, the fragment of `unicode.IsSpace` exercised by the
management-protocol responses. -/
def isSpaceChar (c : Char) : Bool :=
  c = ' ' || c = '\t' || c = '\n' || c = '\r' || c = '\x0b' || c = '\x0c'

/-- Model of Go `strings.TrimSpace`. -/
def trimSpace (s : String) : String :=
  String.mk (((s.data.dropWhile isSpaceChar).reverse.dropWhile isSpaceChar).reverse)

/-- Decimal digit test. -/
def isDigitChar (c : Char) : Bool :=
  '0' ≤ c && c ≤ '9'

/-- Numeric value of a list of decimal digits. -/
def natOfDigits (l : List Char) : Nat :=
  l.foldl (fun n c => n * 10 + (c.toNat - '0'.toNat)) 0

/-- Model of `fmt.Sscanf(s, "%d", &x)` with `x` initialised to zero and the
error ignored, as in `GetEdgeInfo`: an optional sign followed by a maximal
run of decimal digits is parsed; if there is no digit the target keeps its
zero value.  (Counters fit comfortably in `int64`, so overflow is ignored.) -/
def sscanfInt (s : String) : Int :=
  match s.data with
  | '-' :: rest =>
    match rest.takeWhile isDigitChar with
    | [] => 0
    | ds => -(natOfDigits ds : Int)
  | '+' :: rest =>
    match rest.takeWhile isDigitChar with
    | [] => 0
    | ds => (natOfDigits ds : Int)
  | l =>
    match l.takeWhile isDigitChar with
    | [] => 0
    | ds => (natOfDigits ds : Int)

/-! ## Association lists standing in for Go maps

Every shared table in the source is a Go `map[string]V` guarded by a mutex.
Callers only ever run whole operations under the lock, so each operation is
a pure function on an association list with pairwise-distinct keys.  The
list order stands in for one fixed iteration order of the Go map (Go
randomises it; none of the proved statements depend on the choice except
where noted). -/

/-- Lookup in an association list (Go `m[k]` with the `ok` flag). -/
def lookupA {β : Type} (k : String) : List (String × β) → Option β
  | [] => none
  | e :: rest => if e.1 = k then some e.2 else lookupA k rest

/-- Insert-or-replace (Go `m[k] = v`).  A fresh key is appended, which fixes
one possible iteration order for later scans. -/
def updateA {β : Type} (k : String) (v : β) : List (String × β) → List (String × β)
  | [] => [(k, v)]
  | e :: rest => if e.1 = k then (k, v) :: rest else e :: updateA k v rest

/-- Deletion (Go `delete(m, k)`); with unique keys this removes the single
entry with key `k`. -/
def eraseA {β : Type} (k : String) (l : List (String × β)) : List (String × β) :=
  l.filter (fun e => e.1 ≠ k)

/-- One step of the oldest-entry scan shared by `recordLoginFail` and
`getIPLocation`: `f` projects the timestamp out of the stored value. -/
def oldStep {β : Type} (f : β → Time) (acc : Option (String × Time)) (e : String × β) :
    Option (String × Time) :=
  match acc with
  | none => some (e.1, f e.2)
  | some (_, t) => if f e.2 < t then some (e.1, f e.2) else acc

/-- Key of the entry with the smallest `f`-timestamp, first occurrence
winning ties.  Go uses the empty string as its not-yet-found sentinel; the
keys stored in these tables (client addresses, `user:`-prefixed names,
public addresses) are never empty, so an `Option` models this exactly. -/
def findOldestBy {β : Type} (f : β → Time) (l : List (String × β)) : Option String :=
  (l.foldl (oldStep f) none).map Prod.fst

/-! ## Login throttle (backend/main.go) -/

/-- Record of failed login attempts for one key (`LoginAttempt` in the
source; the Go zero value is all-zero). -/
structure LoginAttempt where
  failCount : Nat
  lockUntil : Time
  lastFail : Time
deriving DecidableEq, Repr

/-- Zero value of `LoginAttempt`, what `&LoginAttempt{}` allocates. -/
def zeroAttempt : LoginAttempt := ⟨0, 0, 0⟩

/-- Constant `maxLoginAttempts = 5` from the source. -/
def maxLoginAttempts : Nat := 5

/-- Constant `lockDuration = 15 * time.Minute` in nanoseconds. -/
def lockDuration : Time := 900000000000

/-- Constant `maxLoginRecords = 10000` from the source. -/
def maxLoginRecords : Nat := 10000

/-- Constant `loginRecordExpiry = 1 * time.Hour` in nanoseconds. -/
def loginRecordExpiry : Time := 3600000000000

/-- The `5 * time.Minute` inactivity bound used by the overflow purge inside
`recordLoginFail`. -/
def purgeInactivity : Time := 300000000000

/-- State of the `loginAttempts` table. -/
abbrev LoginMap := List (String × LoginAttempt)

/-- First pass of the overflow handling in `recordLoginFail`: delete every
entry that is unlocked (`now.After(LockUntil)`) and inactive for more than
five minutes. -/
def purgeStale (now : Time) (s : LoginMap) : LoginMap :=
  s.filter (fun e => !(decide (e.2.lockUntil < now) && decide (purgeInactivity < now - e.2.lastFail)))

/-- Second pass of the overflow handling: while the table still holds at
least `maxLoginRecords` entries, delete the entry whose `lastFail` is
oldest.  The Go loop removes one present key per iteration, so running it
with fuel equal to the table size always reaches the loop's exit condition;
the fuel is only a termination device, not a behavioural bound. -/
def evictOldest : Nat → LoginMap → LoginMap
  | 0, s => s
  | fuel + 1, s =>
    if maxLoginRecords ≤ s.length then
      match findOldestBy (fun a => a.lastFail) s with
      | some k => evictOldest fuel (eraseA k s)
      | none => s
    else s

/-- Attempt value after the per-key body of the insert loop in
`recordLoginFail`: increment, stamp, and lock when the threshold is hit. -/
def steppedAttempt (now : Time) (a : LoginAttempt) : LoginAttempt :=
  let a1 : LoginAttempt := { a with failCount := a.failCount + 1, lastFail := now }
  if maxLoginAttempts ≤ a1.failCount then { a1 with lockUntil := now + lockDuration } else a1

/-- One iteration of the `for _, key := range []string{ip, "user:" + username}`
loop in `recordLoginFail`: returns the updated table and whether this key
just tripped (or re-tripped) the lock. -/
def failStep (now : Time) (k : String) (s : LoginMap) : LoginMap × Bool :=
  let a := steppedAttempt now ((lookupA k s).getD zeroAttempt)
  (updateA k a s, decide (maxLoginAttempts ≤ a.failCount))

/-- Model of `recordLoginFail(ip, username)` at instant `now`: overflow
handling, then the double insert; returns `(locked, remaining, table)`. -/
def recordLoginFail (ip username : String) (now : Time) (s : LoginMap) :
    Bool × Time × LoginMap :=
  let s0 := if maxLoginRecords ≤ s.length then
      let sp := purgeStale now s
      evictOldest sp.length sp
    else s
  let r1 := failStep now ip s0
  let r2 := failStep now ("user:" ++ username) r1.1
  let locked := r1.2 || r2.2
  (locked, if locked then lockDuration else 0, r2.1)

/-- Model of `checkLoginLock(key)` at instant `now`: returns
`(locked, remaining, table)`; an expired lock lazily resets the counter of a
record whose count reached the threshold, without deleting the record. -/
def checkLoginLock (k : String) (now : Time) (s : LoginMap) :
    Bool × Time × LoginMap :=
  match lookupA k s with
  | some a =>
    if now < a.lockUntil then (true, a.lockUntil - now, s)
    else if maxLoginAttempts ≤ a.failCount then
      (false, 0, updateA k { a with failCount := 0 } s)
    else (false, 0, s)
  | none => (false, 0, s)

/-- Model of `clearLoginFail(ip, username)`. -/
def clearLoginFail (ip username : String) (s : LoginMap) : LoginMap :=
  eraseA ("user:" ++ username) (eraseA ip s)

/-- Fold of `recordLoginFail` over a whole call sequence, starting from a
given table; each call carries its client address, account name and instant. -/
def runLoginFails : List (String × String × Time) → LoginMap → LoginMap
  | [], s => s
  | c :: rest, s => runLoginFails rest (recordLoginFail c.1 c.2.1 c.2.2 s).2.2

/-! ## Relay-detection table (backend/main.go) -/

/-- Entry of the relay table (`RelayEvent` in the source). -/
structure RelayEvent where
  srcMac : String
  dstMac : String
  lastActive : Time
  pktCount : Int
deriving DecidableEq, Repr

/-- State of the `relayMap` table; keys have the shape `SRC->DST` built by
the log analyzer. -/
abbrev RelayMap := List (String × RelayEvent)

/-- The 60-second staleness window of `getActiveRelays`, in nanoseconds. -/
def staleWindow : Time := 60000000000

/-- Model of the `getActiveRelays` handler body: one pass over the table
that returns the events still within the staleness window and deletes every
other entry; the result is `(returned list, table afterwards)`. -/
def getActiveRelays (now : Time) : RelayMap → List RelayEvent × RelayMap
  | [] => ([], [])
  | e :: rest =>
    let r := getActiveRelays now rest
    if now - e.2.lastActive < staleWindow then (e.2 :: r.1, e :: r.2) else r

/-! ## GeoIP resolution cache (backend/main.go) -/

/-- Resolved location metadata (`IPLocation` in the source). -/
structure IPLocation where
  country : String
  city : String
  isp : String
deriving DecidableEq, Repr

/-- Cache entry (`IPCacheEntry` in the source). -/
structure IPCacheEntry where
  location : IPLocation
  createdAt : Time
deriving DecidableEq, Repr

/-- State of the `ipCache` table. -/
abbrev IPCache := List (String × IPCacheEntry)

/-- Outcome of the single outbound HTTP lookup a `getIPLocation` call may
perform, abstracting the network: `ok` is a decoded response with
`status == "success"`; `netError` is a transport error; `badResponse`
covers the two source branches with identical results (undecodable body,
or decoded with a non-success status). -/
inductive LookupResult where
  | ok (loc : IPLocation)
  | netError
  | badResponse
deriving DecidableEq, Repr

/-- The fixed local-network result (`本地网络` means "local network"). -/
def localSentinel : IPLocation := ⟨"本地网络", "-", "-"⟩

/-- Sentinel for a transport error (`未知`/`查询失败`: "unknown"/"lookup failed"). -/
def unknownNetFail : IPLocation := ⟨"未知", "查询失败", "-"⟩

/-- Sentinel for an undecodable or non-success response. -/
def unknownSentinel : IPLocation := ⟨"未知", "-", "-"⟩

/-- The short-circuit test at the top of `getIPLocation`: empty address or
one of the literal prefixes `127.`, `192.168.`, `10.`. -/
def isLocalIP (ip : String) : Bool :=
  ip == "" || strPre "127." ip || strPre "192.168." ip || strPre "10." ip

/-- Tail of `getIPLocation` from the outbound lookup on: on success the
size cap is enforced by evicting the entry with the oldest `CreatedAt`
before the insert; on failure nothing is cached. -/
def geoLookup (ip : String) (oracle : LookupResult) (now : Time) (cap : Nat)
    (cache : IPCache) : IPLocation × IPCache :=
  match oracle with
  | .netError => (unknownNetFail, cache)
  | .badResponse => (unknownSentinel, cache)
  | .ok loc =>
    let cache1 :=
      if cap ≤ cache.length then
        match findOldestBy (fun e => e.createdAt) cache with
        | some k => eraseA k cache
        | none => cache
      else cache
    (loc, cache1 ++ [(ip, ⟨loc, now⟩)])

/-- Model of `getIPLocation(ip)` at instant `now` with cache TTL `ttl` and
size cap `cap` (the source reads both from the configuration; the defaults
are 24 hours and 1000 entries).  `oracle` is the outcome the HTTP lookup
would observe; it is consulted only on the paths where the source issues
the request.  Returns `(location, cache afterwards)`. -/
def getIPLocation (ip : String) (oracle : LookupResult) (now ttl : Time) (cap : Nat)
    (cache : IPCache) : IPLocation × IPCache :=
  if isLocalIP ip then (localSentinel, cache)
  else
    match lookupA ip cache with
    | some e =>
      if now - e.createdAt < ttl then (e.location, cache)
      else geoLookup ip oracle now cap (eraseA ip cache)
    | none => geoLookup ip oracle now cap cache

/-- Fold of `getIPLocation` over a whole call sequence; each call carries
the address, the lookup outcome and the instant. -/
def runGeo (ttl : Time) (cap : Nat) : List (String × LookupResult × Time) → IPCache → IPCache
  | [], c => c
  | r :: rest, c => runGeo ttl cap rest (getIPLocation r.1 r.2.1 r.2.2 ttl cap c).2

/-! ## Management-protocol client (backend/utils/n2n_utils.go) -/

/-- Parsed peer record (`EdgeInfo` in the source). -/
structure EdgeInfo where
  mac : String
  internal : String
  external : String
  lastSeen : Int
deriving DecidableEq, Repr

/-- Transport trace of one `Query` call: the outcome of `DialTimeout`, of
`Write`, and the successive `Read` results.  A read delivers some bytes
(possibly none) and possibly an error; the deadline guarantees every real
trace ends in an error (a timeout), which is how the response ends. -/
structure QueryTrace where
  dialErr : Option String
  writeErr : Option String
  reads : List (String × Option String)
deriving DecidableEq, Repr

/-- The read loop of `Query`: bytes delivered by a read are appended even
when that same read also reports the error that stops the loop. -/
def queryReadLoop : List (String × Option String) → String
  | [] => ""
  | r :: rest =>
    match r.2 with
    | some _ => r.1
    | none => r.1 ++ queryReadLoop rest

/-- Model of `MgmtClient.Query(command)` against transport trace `tr`:
dial and write errors abort with an empty result; the read loop never
produces an error of its own.  The command string itself does not influence
the modelled outcome beyond being written. -/
def Query (tr : QueryTrace) (command : String) : String × Option String :=
  match tr.dialErr with
  | some e => ("", some e)
  | none =>
    match tr.writeErr with
    | some e => ("", some e)
    | none =>
      let _ := command
      (queryReadLoop tr.reads, none)

/-- Hex-digit test of the character class `[0-9A-Fa-f]`. -/
def isHexDigit (c : Char) : Bool :=
  ('0' ≤ c && c ≤ '9') || ('A' ≤ c && c ≤ 'F') || ('a' ≤ c && c ≤ 'f')

/-- Separator class `[:-]` of the MAC regular expression. -/
def isMacSep (c : Char) : Bool :=
  c = ':' || c = '-'

/-- Anchored test for `([0-9A-Fa-f]{2}[:-]){n}([0-9A-Fa-f]{2})` at the head
of a character list. -/
def macShapeAux : Nat → List Char → Bool
  | 0, a :: b :: _ => isHexDigit a && isHexDigit b
  | n + 1, a :: b :: s :: rest => isHexDigit a && isHexDigit b && isMacSep s && macShapeAux n rest
  | _, _ => false

/-- Leftmost match of the 17-character MAC pattern in a character list.
Every match of the pattern has length exactly 17, so leftmost-first search
reduces to scanning start positions. -/
def findMacList : List Char → Option (List Char)
  | [] => none
  | x :: xs => if macShapeAux 5 (x :: xs) then some ((x :: xs).take 17) else findMacList xs

/-- Model of `reMac.FindString(line)`: the empty string signals no match,
exactly as in Go (the pattern cannot match an empty string). -/
def findMac (s : String) : String :=
  match findMacList s.data with
  | some l => String.mk l
  | none => ""

/-- Canonical hardware address: `strings.ToUpper(strings.ReplaceAll(mac, ":", ""))`.
Only colons are removed; hyphens, if present, survive. -/
def canonMac (s : String) : String :=
  String.mk ((s.data.filter (fun c => !(c = ':'))).map Char.toUpper)

/-- Per-line body of the parsing loop in `GetEdgeInfo`.  Input: the
supernode-section flag and one line; output: the updated flag and the
key/record pair inserted into the result map, if any. -/
def processLine (inSN : Bool) (line : String) : Bool × Option (String × EdgeInfo) :=
  if strContains line "SUPERNODES" then (true, none)
  else if strContains line "SUPERNODE FORWARD" || strContains line "FEDERATION" then (false, none)
  else if inSN then (true, none)
  else
    let mac := findMac line
    if mac = "" then (false, none)
    else
      let fields := splitChar '|' line
      if 5 ≤ fields.length then
        (false, some (canonMac mac,
          { mac := canonMac mac
            internal := trimSpace (fields.getD 1 "")
            external := trimSpace (fields.getD 3 "")
            lastSeen := sscanfInt (trimSpace (fields.getLastD "")) }))
      else (false, none)

/-- Fold of `processLine` over the response lines, inserting each yielded
record into the result map (later lines with the same canonical address
overwrite earlier ones, as with the Go map). -/
def edgesFold : Bool → List (String × EdgeInfo) → List String → List (String × EdgeInfo)
  | _, m, [] => m
  | inSN, m, line :: rest =>
    let p := processLine inSN line
    match p.2 with
    | some r => edgesFold p.1 (updateA r.1 r.2 m) rest
    | none => edgesFold p.1 m rest

/-- Parsing half of `MgmtClient.GetEdgeInfo`: split the response on
newlines and fold the line parser, starting outside any supernode section. -/
def GetEdgeInfo (resp : String) : List (String × EdgeInfo) :=
  edgesFold false [] (splitChar '\n' resp)

/-- Full `MgmtClient.GetEdgeInfo` including the transport: a `Query` error
is returned as-is with a `nil` map. -/
def GetEdgeInfoQ (tr : QueryTrace) : Except String (List (String × EdgeInfo)) :=
  match Query tr "edges" with
  | (_, some e) => Except.error e
  | (resp, none) => Except.ok (GetEdgeInfo resp)

/-! ## Aggregator (`getNodes` in backend/main.go, helpers in n2n_utils.go) -/

/-- One decimal octet of a dotted-quad address under the `net.ParseIP`
rules of Go 1.17+ (the module requires Go 1.21): one to three decimal
digits, value at most 255, leading zeros rejected. -/
def parseOctet (l : List Char) : Option Nat :=
  match l with
  | [] => none
  | c :: rest =>
    if !(l.all isDigitChar) then none
    else if 3 < l.length then none
    else if c = '0' && rest ≠ [] then none
    else
      let n := natOfDigits l
      if n ≤ 255 then some n else none

/-- Model of `net.ParseIP` on the dotted-quad IPv4 forms the overlay uses
(IPv6 textual forms do not occur in this deployment and are not modelled);
the result is the list of the four octet values. -/
def parseIP (s : String) : Option (List Nat) :=
  match (splitCharAux '.' s.data []).map (fun p => parseOctet p) with
  | [some a, some b, some c, some d] => some [a, b, c, d]
  | _ => none

/-- Bytewise three-way comparison underlying `utils.CompareIP`.  The source
compares the 16-byte `To16` forms; for two IPv4 addresses the shared
12-byte mapped prefix compares equal, so comparing the four octets is the
same function. -/
def CompareIP : List Nat → List Nat → Int
  | a :: as, b :: bs => if a < b then -1 else if b < a then 1 else CompareIP as bs
  | _, _ => 0

/-- Annotated node view assembled by `getNodes` (field names follow the
JSON keys of the handler). -/
structure NodeView where
  id : Nat
  name : String
  ip_address : String
  mac_address : String
  community : String
  is_online : Bool
  is_mapped : Bool
  external_ip : String
  location : String
  conn_type : String
deriving DecidableEq, Repr

/-- Persisted node record, restricted to the fields `getNodes` reads
(`models.Node`). -/
structure Node where
  id : Nat
  name : String
  ipAddress : String
  macAddress : String
  community : String
deriving DecidableEq, Repr

/-- Lexicographic order on character lists, modelling Go's bytewise `<` on
strings (identical on the ASCII addresses involved). -/
def listLtChar : List Char → List Char → Bool
  | [], [] => false
  | [], _ :: _ => true
  | _ :: _, [] => false
  | a :: as, b :: bs => if a < b then true else if b < a then false else listLtChar as bs

/-- Model of Go `a < b` on strings. -/
def strLt (a b : String) : Bool := listLtChar a.data b.data

/-- Comparator of the `sort.Slice` call in `getNodes`: numeric comparison
when both virtual addresses parse, otherwise plain string comparison. -/
def nodeLess (a b : NodeView) : Bool :=
  match parseIP a.ip_address, parseIP b.ip_address with
  | some x, some y => decide (CompareIP x y < 0)
  | _, _ => strLt a.ip_address b.ip_address

/-- Insertion into the reversed sorted prefix, scanning from the right:
this is the inner `for j := i; j > 0 && less(data[j], data[j-1]); j--`
loop of Go's insertion sort (the list holds the prefix right-to-left). -/
def insRev {α : Type} (less : α → α → Bool) (x : α) : List α → List α
  | [] => [x]
  | y :: ys => if less x y then y :: insRev less x ys else x :: y :: ys

/-- Model of `sort.Slice`: Go's pdqsort runs plain insertion sort on slices
shorter than 12, which this reproduces exactly; for a comparator that is a
strict weak order (the only case in which any general claim is made below)
every correct sort produces a list sorted in the same sense. -/
def goSort {α : Type} (less : α → α → Bool) (l : List α) : List α :=
  (l.foldl (fun r x => insRev less x r) []).reverse

/-- Source hardware address of a relay-table key: `strings.Split(key, "->")[0]`. -/
def splitArrowFst : List Char → List Char
  | [] => []
  | '-' :: '>' :: _ => []
  | x :: xs => x :: splitArrowFst xs

/-- Model of the `activeRelays` set built at the top of `getNodes`: the
source MAC of every key currently in the relay table — with no staleness
filtering and without the destination side. -/
def activeRelaySrcs (relayMap : RelayMap) : List String :=
  relayMap.map (fun e => String.mk (splitArrowFst e.1.data))

/-- Public address of a peer: `strings.Split(info.External, ":")[0]`. -/
def publicIPOf (external : String) : String :=
  (splitChar ':' external).headD ""

/-- View built for one persisted node in the first loop of `getNodes`.
`geo` abstracts `getIPLocation` as the location each public address
resolves to during this request; the cache threading of the resolver is
modelled separately and does not influence any other field. -/
def mappedView (edges : List (String × EdgeInfo)) (srcs : List String)
    (geo : String → IPLocation) (n : Node) : NodeView :=
  let m := canonMac n.macAddress
  match lookupA m edges with
  | some info =>
    let publicIP := publicIPOf info.external
    let loc := geo publicIP
    { id := n.id, name := n.name, ip_address := n.ipAddress, mac_address := n.macAddress
      community := n.community, is_online := true, is_mapped := true
      external_ip := publicIP
      location := loc.country ++ " " ++ loc.city ++ " (" ++ loc.isp ++ ")"
      conn_type := if srcs.contains m then "Relay" else "P2P" }
  | none =>
    { id := n.id, name := n.name, ip_address := n.ipAddress, mac_address := n.macAddress
      community := n.community, is_online := false, is_mapped := true
      external_ip := "", location := "", conn_type := "" }

/-- Views synthesised by the second loop of `getNodes` for live peers with
no matching persisted node (`新发现节点` is "newly discovered node", `未知`
is "unknown"). -/
def unmappedViews (edges : List (String × EdgeInfo)) (mappedMacs : List String)
    (srcs : List String) (geo : String → IPLocation) : List NodeView :=
  (edges.filter (fun e => !(mappedMacs.contains e.1))).map (fun e =>
    let publicIP := publicIPOf e.2.external
    let loc := geo publicIP
    { id := 0, name := "新发现节点", ip_address := e.2.internal, mac_address := e.1
      community := "未知", is_online := true, is_mapped := false
      external_ip := publicIP
      location := loc.country ++ " " ++ loc.city
      conn_type := if srcs.contains e.1 then "Relay" else "P2P" })

/-- Model of the `getNodes` handler: join the persisted inventory with the
live peer map and the relay table, synthesise unmapped entries, and sort by
the virtual-address comparator. -/
def getNodes (nodes : List Node) (edges : List (String × EdgeInfo))
    (relayMap : RelayMap) (geo : String → IPLocation) : List NodeView :=
  goSort nodeLess
    (nodes.map (mappedView edges (activeRelaySrcs relayMap) geo) ++
      unmappedViews edges (nodes.map (fun n => canonMac n.macAddress))
        (activeRelaySrcs relayMap) geo)

/-- Connection type as the spec's words predict it (claim C1): `Relay`
exactly when the canonical address appears on either side of some relay
pair whose last-active instant lies within the staleness window. -/
def specRelayConnType (now : Time) (relayMap : RelayMap) (m : String) : String :=
  if relayMap.any (fun e =>
      (e.2.srcMac == m || e.2.dstMac == m) && decide (now - e.2.lastActive < staleWindow))
  then "Relay" else "P2P"

/-- Membership of an address in the loopback or RFC1918 ranges, following
the spec's words (claim C9). -/
def specPrivateOrLoopback (ip : String) : Bool :=
  match parseIP ip with
  | some (a :: b :: _) =>
    a == 127 || a == 10 || (a == 172 && decide (16 ≤ b) && decide (b ≤ 31)) || (a == 192 && b == 168)
  | _ => false

/-! ## General lemmas about the table primitives -/

theorem lookupA_eq_none {β : Type} (k : String) :
    ∀ l : List (String × β), k ∉ l.map Prod.fst → lookupA k l = none := by
  intro l
  induction l with
  | nil => intro _; rfl
  | cons e rest ih =>
    intro h
    simp only [List.map_cons, List.mem_cons] at h
    push_neg at h
    simp only [lookupA]
    rw [if_neg (fun hh => h.1 hh.symm), ih h.2]

theorem updateA_absent {β : Type} (k : String) (v : β) :
    ∀ l : List (String × β), k ∉ l.map Prod.fst → updateA k v l = l ++ [(k, v)] := by
  intro l
  induction l with
  | nil => intro _; rfl
  | cons e rest ih =>
    intro h
    simp only [List.map_cons, List.mem_cons] at h
    push_neg at h
    simp only [updateA]
    rw [if_neg (fun hh => h.1 hh.symm), ih h.2, List.cons_append]

theorem lookupA_updateA_self {β : Type} (k : String) (v : β) :
    ∀ l : List (String × β), lookupA k (updateA k v l) = some v := by
  intro l
  induction l with
  | nil => simp [updateA, lookupA]
  | cons e rest ih =>
    by_cases h : e.1 = k
    · simp [updateA, lookupA, h]
    · simp [updateA, lookupA, h, ih]

theorem lookupA_updateA_ne {β : Type} (k k' : String) (v : β) (hne : k' ≠ k) :
    ∀ l : List (String × β), lookupA k' (updateA k v l) = lookupA k' l := by
  intro l
  induction l with
  | nil => simp [updateA, lookupA, Ne.symm hne]
  | cons e rest ih =>
    by_cases h : e.1 = k
    · simp only [updateA, if_pos h, lookupA]
      rw [if_neg (fun hh => hne hh.symm), if_neg (fun hh => hne (hh.symm.trans h))]
    · simp only [updateA, if_neg h, lookupA, ih]

theorem length_updateA_le {β : Type} (k : String) (v : β) :
    ∀ l : List (String × β), (updateA k v l).length ≤ l.length + 1 := by
  intro l
  induction l with
  | nil => simp [updateA]
  | cons e rest ih =>
    by_cases h : e.1 = k
    · simp [updateA, h]
    · simp only [updateA, if_neg h, List.length_cons]
      omega

theorem length_eraseA_le {β : Type} (k : String) (l : List (String × β)) :
    (eraseA k l).length ≤ l.length :=
  List.length_filter_le _ l

theorem length_eraseA_lt {β : Type} (k : String) :
    ∀ l : List (String × β), k ∈ l.map Prod.fst → (eraseA k l).length < l.length := by
  intro l
  induction l with
  | nil => simp
  | cons e rest ih =>
    intro h
    by_cases hk : e.1 = k
    · have hle := length_eraseA_le k rest
      have hdrop : eraseA k (e :: rest) = eraseA k rest := by
        simp [eraseA, List.filter_cons, hk]
      rw [hdrop]
      simp only [List.length_cons]
      exact Nat.lt_succ_of_le hle
    · simp only [List.map_cons, List.mem_cons] at h
      rcases h with h | h
      · exact absurd h.symm hk
      · have hkeep : eraseA k (e :: rest) = e :: eraseA k rest := by
          simp [eraseA, List.filter_cons, hk]
        rw [hkeep]
        simp only [List.length_cons]
        exact Nat.succ_lt_succ (ih h)

theorem foldl_oldStep_none {β : Type} (f : β → Time) :
    ∀ (l : List (String × β)) (acc : Option (String × Time)),
      l.foldl (oldStep f) acc = none → acc = none ∧ l = [] := by
  intro l
  induction l with
  | nil => intro acc h; exact ⟨h, rfl⟩
  | cons e rest ih =>
    intro acc h
    have h2 := ih (oldStep f acc e) h
    exfalso
    rcases acc with _ | p
    · simp [oldStep] at h2
    · simp only [oldStep] at h2
      rcases h2 with ⟨h2, -⟩
      split at h2 <;> simp_all

theorem foldl_oldStep_min {β : Type} (f : β → Time) :
    ∀ (l : List (String × β)) (acc : Option (String × Time)) (k : String) (t : Time),
      l.foldl (oldStep f) acc = some (k, t) →
      ((∃ b, (k, b) ∈ l ∧ f b = t) ∨ acc = some (k, t)) ∧
        (∀ e ∈ l, t ≤ f e.2) ∧ (∀ k0 t0, acc = some (k0, t0) → t ≤ t0) := by
  intro l
  induction l with
  | nil =>
    intro acc k t h
    refine ⟨Or.inr h, by simp, ?_⟩
    intro k0 t0 h0
    rw [h0] at h
    cases h
    exact le_refl t
  | cons e rest ih =>
    intro acc k t h
    have H := ih (oldStep f acc e) k t h
    rcases H with ⟨H1, H2, H3⟩
    rcases acc with _ | ⟨k0, t0⟩
    · have hacc : oldStep f (none : Option (String × Time)) e = some (e.1, f e.2) := rfl
      have hte : t ≤ f e.2 := H3 e.1 (f e.2) hacc
      refine ⟨?_, ?_, by simp⟩
      · rcases H1 with ⟨b, hb, hfb⟩ | H1
        · exact Or.inl ⟨b, List.mem_cons_of_mem e hb, hfb⟩
        · rw [hacc] at H1
          cases H1
          exact Or.inl ⟨e.2, by simp, rfl⟩
      · intro x hx
        rcases List.mem_cons.mp hx with hx | hx
        · rw [hx]; exact hte
        · exact H2 x hx
    · by_cases hlt : f e.2 < t0
      · have hacc : oldStep f (some (k0, t0)) e = some (e.1, f e.2) := by
          simp [oldStep, hlt]
        rw [hacc] at H1 H3
        have hte : t ≤ f e.2 := H3 e.1 (f e.2) rfl
        refine ⟨?_, ?_, ?_⟩
        · rcases H1 with ⟨b, hb, hfb⟩ | H1
          · exact Or.inl ⟨b, List.mem_cons_of_mem e hb, hfb⟩
          · cases H1
            exact Or.inl ⟨e.2, by simp, rfl⟩
        · intro x hx
          rcases List.mem_cons.mp hx with hx | hx
          · rw [hx]; exact hte
          · exact H2 x hx
        · intro k1 t1 h1
          cases h1
          exact le_trans hte (le_of_lt hlt)
      · have hacc : oldStep f (some (k0, t0)) e = some (k0, t0) := by
          simp [oldStep, hlt]
        rw [hacc] at H1 H3
        have ht0 : t ≤ t0 := H3 k0 t0 rfl
        refine ⟨?_, ?_, ?_⟩
        · rcases H1 with ⟨b, hb, hfb⟩ | H1
          · exact Or.inl ⟨b, List.mem_cons_of_mem e hb, hfb⟩
          · exact Or.inr H1
        · intro x hx
          rcases List.mem_cons.mp hx with hx | hx
          · rw [hx]; exact le_trans ht0 (le_of_not_lt hlt)
          · exact H2 x hx
        · intro k1 t1 h1
          cases h1
          exact ht0

theorem findOldestBy_min {β : Type} (f : β → Time) (l : List (String × β)) (k : String)
    (h : findOldestBy f l = some k) :
    ∃ b, (k, b) ∈ l ∧ ∀ e ∈ l, f b ≤ f e.2 := by
  unfold findOldestBy at h
  rcases hf : l.foldl (oldStep f) none with _ | ⟨k1, t1⟩
  · rw [hf] at h; cases h
  · rw [hf] at h
    cases h
    have H := foldl_oldStep_min f l none k1 t1 hf
    rcases H.1 with ⟨b, hb, hfb⟩ | H1
    · exact ⟨b, hb, fun e he => hfb ▸ H.2.1 e he⟩
    · cases H1

theorem findOldestBy_mem {β : Type} (f : β → Time) (l : List (String × β)) (k : String)
    (h : findOldestBy f l = some k) : k ∈ l.map Prod.fst := by
  rcases findOldestBy_min f l k h with ⟨b, hb, -⟩
  exact List.mem_map_of_mem Prod.fst hb

theorem findOldestBy_isSome {β : Type} (f : β → Time) (l : List (String × β))
    (h : l ≠ []) : (findOldestBy f l).isSome = true := by
  unfold findOldestBy
  rcases hf : l.foldl (oldStep f) none with _ | p
  · exact absurd (foldl_oldStep_none f l none hf).2 h
  · rfl

/-! ## Claim C4: relay staleness reaping -/

theorem getActiveRelays_returned_fresh (now : Time) :
    ∀ m : RelayMap, ∀ v ∈ (getActiveRelays now m).1, now - v.lastActive < staleWindow := by
  intro m
  induction m with
  | nil => simp [getActiveRelays]
  | cons e rest ih =>
    intro v hv
    by_cases hc : now - e.2.lastActive < staleWindow
    · simp only [getActiveRelays, if_pos hc] at hv
      rcases List.mem_cons.mp hv with hv | hv
      · rw [hv]; exact hc
      · exact ih v hv
    · simp only [getActiveRelays, if_neg hc] at hv
      exact ih v hv

theorem getActiveRelays_retained_fresh (now : Time) :
    ∀ m : RelayMap, ∀ e ∈ (getActiveRelays now m).2, now - e.2.lastActive < staleWindow := by
  intro m
  induction m with
  | nil => simp [getActiveRelays]
  | cons e rest ih =>
    intro x hx
    by_cases hc : now - e.2.lastActive < staleWindow
    · simp only [getActiveRelays, if_pos hc] at hx
      rcases List.mem_cons.mp hx with hx | hx
      · rw [hx]; exact hc
      · exact ih x hx
    · simp only [getActiveRelays, if_neg hc] at hx
      exact ih x hx

/-- C4: no relay pair whose last-active instant is 60 seconds or more in
the past is returned by `getActiveRelays`, and every such stale entry is
deleted from the table by that call; every pair within the window is both
returned and retained. -/
theorem getActiveRelays_staleness (now : Time) (m : RelayMap) :
    (∀ v ∈ (getActiveRelays now m).1, now - v.lastActive < staleWindow) ∧
    (∀ e ∈ m, staleWindow ≤ now - e.2.lastActive → e ∉ (getActiveRelays now m).2) ∧
    (∀ e ∈ m, now - e.2.lastActive < staleWindow →
      e.2 ∈ (getActiveRelays now m).1 ∧ e ∈ (getActiveRelays now m).2) := by
  refine ⟨getActiveRelays_returned_fresh now m, ?_, ?_⟩
  · intro x _ hstale habs
    have hfr := getActiveRelays_retained_fresh now m x habs
    exact absurd hfr (not_lt.mpr hstale)
  · intro x hx hfresh
    induction m with
    | nil => cases hx
    | cons e rest ih =>
      rcases List.mem_cons.mp hx with hx | hx
      · subst hx
        simp only [getActiveRelays, if_pos hfresh]
        exact ⟨List.mem_cons_self _ _, List.mem_cons_self _ _⟩
      · have hrest := ih hx
        by_cases hc : now - e.2.lastActive < staleWindow
        · simp only [getActiveRelays, if_pos hc]
          exact ⟨List.mem_cons_of_mem _ hrest.1, List.mem_cons_of_mem _ hrest.2⟩
        · simp only [getActiveRelays, if_neg hc]
          exact hrest

/-- Concrete relay table for the C4 witness: one stale pair (100 s old at
the chosen instant) and one fresh pair (10 s old). -/
def wRelayMap : RelayMap :=
  [("A->B", ⟨"A", "B", 0, 3⟩), ("C->D", ⟨"C", "D", 90000000000, 5⟩)]

/-- Instant at which the C4 witness reads the table. -/
def wRelayNow : Time := 100000000000

/-- Witness for C4 at a concrete table holding one stale and one fresh pair. -/
theorem getActiveRelays_staleness_witness :
    (("A->B", (⟨"A", "B", 0, 3⟩ : RelayEvent)) ∉ (getActiveRelays wRelayNow wRelayMap).2) ∧
    (⟨"C", "D", 90000000000, 5⟩ : RelayEvent) ∈ (getActiveRelays wRelayNow wRelayMap).1 :=
  ⟨(getActiveRelays_staleness wRelayNow wRelayMap).2.1 _ (by decide) (by decide),
   ((getActiveRelays_staleness wRelayNow wRelayMap).2.2 ("C->D", ⟨"C", "D", 90000000000, 5⟩)
      (by decide) (by decide)).1⟩

/-! ## Claim C10: checkLoginLock below the threshold is a pure read -/

/-- C10: for a key whose record has a failure count strictly below the
threshold and a lock expiry not in the future, `checkLoginLock` reports
unlocked with zero remaining time and returns the table entirely unchanged;
in particular the failure counter is not reset. -/
theorem checkLoginLock_below_threshold (s : LoginMap) (k : String) (now : Time)
    (a : LoginAttempt) (hl : lookupA k s = some a)
    (hc : a.failCount < maxLoginAttempts) (he : a.lockUntil ≤ now) :
    checkLoginLock k now s = (false, 0, s) := by
  simp only [checkLoginLock, hl]
  rw [if_neg (not_lt.mpr he), if_neg (not_le.mpr hc)]

/-- Witness for C10 at a concrete table. -/
theorem checkLoginLock_below_threshold_witness :
    checkLoginLock "1.2.3.4" 60 [("1.2.3.4", ⟨2, 50, 10⟩)]
      = (false, 0, [("1.2.3.4", ⟨2, 50, 10⟩)]) :=
  checkLoginLock_below_threshold [("1.2.3.4", ⟨2, 50, 10⟩)] "1.2.3.4" 60 ⟨2, 50, 10⟩
    (by decide) (by decide) (by decide)

/-! ## Claim C9: private/loopback short-circuit of getIPLocation -/

/-- Counterexample to C9 as stated: `172.16.0.1` lies in an RFC1918 block,
yet `getIPLocation` does not short-circuit it — with an empty cache and a
successful lookup it returns the looked-up location and inserts a cache
entry, instead of returning the local-network sentinel and leaving the
cache untouched. -/
theorem getIPLocation_rfc1918_counterexample :
    specPrivateOrLoopback "172.16.0.1" = true ∧
    isLocalIP "172.16.0.1" = false ∧
    getIPLocation "172.16.0.1" (.ok ⟨"US", "LA", "ISP1"⟩) 5 100 1000 []
      = (⟨"US", "LA", "ISP1"⟩, [("172.16.0.1", ⟨⟨"US", "LA", "ISP1"⟩, 5⟩)]) := by
  refine ⟨by decide, by decide, by decide⟩

/-- C9 as amended: an address that is empty or carries one of the literal
source prefixes `127.`, `192.168.`, `10.` is short-circuited to the fixed
local-network sentinel with the cache returned unchanged; the result is
the same for every lookup outcome, so no external lookup is performed.
Addresses in `172.16.0.0/12` are not short-circuited. -/
theorem getIPLocation_local_shortcircuit (ip : String) (oracle : LookupResult)
    (now ttl : Time) (cap : Nat) (cache : IPCache) (h : isLocalIP ip = true) :
    getIPLocation ip oracle now ttl cap cache = (localSentinel, cache) := by
  unfold getIPLocation
  rw [if_pos h]

/-- Witness for the amended C9 at a concrete private address and non-empty
cache. -/
theorem getIPLocation_local_shortcircuit_witness :
    getIPLocation "192.168.1.5" LookupResult.netError 5 100 1000
        [("8.8.8.8", ⟨⟨"US", "MV", "G"⟩, 1⟩)]
      = (localSentinel, [("8.8.8.8", ⟨⟨"US", "MV", "G"⟩, 1⟩)]) :=
  getIPLocation_local_shortcircuit "192.168.1.5" LookupResult.netError 5 100 1000
    [("8.8.8.8", ⟨⟨"US", "MV", "G"⟩, 1⟩)] (by decide)

/-! ## Claim C8: failure policy of the management-protocol query -/

/-- Transport trace for the C8 counterexample: dial and write succeed, the
first read delivers data, the second read fails with a genuine transport
error. -/
def cTrace : QueryTrace :=
  ⟨none, none, [("edge-data", none), ("", some "read: connection reset")]⟩

/-- Counterexample to C8 as stated: the trace contains a transport error
while reading, yet `Query` returns the partial data accumulated before the
error with a `nil` error — not an error result with no data. -/
theorem query_read_error_counterexample :
    Query cTrace "edges" = ("edge-data", none) ∧
    cTrace.reads.any (fun r => r.2.isSome) = true := by
  exact ⟨rfl, rfl⟩

/-- C8 as amended: an error at session open or at command write yields an
error result with no data (and `GetEdgeInfo` propagates it with no peer
map), but an error while reading merely terminates the response: the bytes
accumulated so far — including those delivered by the erroring read — are
returned with no error, since the read loop treats any read failure as the
end-of-response signal. -/
theorem query_failure_policy (e : String) (w : Option String)
    (reads rest : List (String × Option String)) (cmd chunk : String) :
    Query ⟨some e, w, reads⟩ cmd = ("", some e) ∧
    Query ⟨none, some e, reads⟩ cmd = ("", some e) ∧
    Query ⟨none, none, reads⟩ cmd = (queryReadLoop reads, none) ∧
    queryReadLoop ((chunk, some e) :: rest) = chunk ∧
    queryReadLoop ((chunk, none) :: rest) = chunk ++ queryReadLoop rest ∧
    GetEdgeInfoQ ⟨some e, w, reads⟩ = Except.error e ∧
    GetEdgeInfoQ ⟨none, some e, reads⟩ = Except.error e :=
  ⟨rfl, rfl, rfl, rfl, rfl, rfl, rfl⟩

/-! ## Claim C6: the management-protocol response parser -/

/-- Line for the C6 counterexample: a section-marker line containing a
well-formed MAC token and six pipe-delimited fields, outside any
SUPERNODES section. -/
def fedLine : String := "FEDERATION |10.0.0.5|x|1.2.3.4:80|AA:BB:CC:DD:EE:FF|7"

/-- Counterexample to C6 as stated: `fedLine` is outside any SUPERNODES
section (no line of the response contains that header), carries a MAC
token and has at least five pipe fields, so by the claim it must yield a
record — but the parser skips every section-marker line, and the result
map is empty. -/
theorem parser_marker_counterexample :
    GetEdgeInfo fedLine = [] ∧
    ¬ findMac fedLine = "" ∧
    5 ≤ (splitChar '|' fedLine).length ∧
    strContains fedLine "SUPERNODES" = false := by
  refine ⟨by decide, by decide, by decide, by decide⟩

/-- C6 as amended: outside a SUPERNODES section, a line yields a peer
record exactly when it is not a section-marker line (one containing
`SUPERNODES`, `SUPERNODE FORWARD` or `FEDERATION`, which only toggle the
section state), contains a MAC-shaped token and has at least five
pipe-delimited fields; a line inside the section never yields a record;
and a yielded record takes field 2 as internal address, field 4 as
external address:port, and the last field as the last-seen counter with
a best-effort integer parse defaulting to zero. -/
theorem processLine_characterisation (inSN : Bool) (line : String) :
    ((processLine inSN line).2.isSome = true ↔
      inSN = false ∧ strContains line "SUPERNODES" = false ∧
      (strContains line "SUPERNODE FORWARD" || strContains line "FEDERATION") = false ∧
      ¬ findMac line = "" ∧ 5 ≤ (splitChar '|' line).length) ∧
    (∀ k v, (processLine inSN line).2 = some (k, v) →
      k = canonMac (findMac line) ∧
      v.internal = trimSpace ((splitChar '|' line).getD 1 "") ∧
      v.external = trimSpace ((splitChar '|' line).getD 3 "") ∧
      v.lastSeen = sscanfInt (trimSpace ((splitChar '|' line).getLastD ""))) := by
  unfold processLine
  cases hS : strContains line "SUPERNODES" with
  | true => simp [hS]
  | false =>
    cases hF : (strContains line "SUPERNODE FORWARD" || strContains line "FEDERATION") with
    | true => simp [hS, hF]
    | false =>
      cases inSN with
      | true => simp [hS, hF]
      | false =>
        by_cases hm : findMac line = ""
        · simp [hS, hF, hm]
        · by_cases hl5 : 5 ≤ (splitChar '|' line).length
          · simp only [hS, hF, hm, hl5, Bool.false_eq_true, if_false, if_pos,
              if_neg (fun hh => hm hh)]
            constructor
            · simp [hm, hl5]
            · intro k v hkv
              cases hkv
              exact ⟨rfl, rfl, rfl, rfl⟩
          · simp [hS, hF, hm, hl5]

/-- Peer line for the C6 witness. -/
def wPeerLine : String := " AA:BB:CC:DD:EE:FF |10.0.0.5|x|1.2.3.4:80|7"

/-- Record yielded by `wPeerLine`. -/
def wPeerInfo : EdgeInfo := ⟨"AABBCCDDEEFF", "10.0.0.5", "1.2.3.4:80", 7⟩

/-- Witness for the amended C6 at a concrete peer line. -/
theorem processLine_characterisation_witness :
    (processLine false wPeerLine).2.isSome = true ∧
    wPeerInfo.internal = trimSpace ((splitChar '|' wPeerLine).getD 1 "") ∧
    wPeerInfo.external = trimSpace ((splitChar '|' wPeerLine).getD 3 "") ∧
    wPeerInfo.lastSeen = sscanfInt (trimSpace ((splitChar '|' wPeerLine).getLastD "")) :=
  ⟨(processLine_characterisation false wPeerLine).1.mpr (by decide),
   ((processLine_characterisation false wPeerLine).2 "AABBCCDDEEFF" wPeerInfo (by decide)).2⟩

/-! ## Claims C1 and C7: the aggregator -/

/-- Location resolver returning empty fields, for concrete aggregator runs
(the resolved text influences only the `location` string). -/
def geoZero : String → IPLocation := fun _ => ⟨"", "", ""⟩

/-- Persisted node for the C1 counterexample. -/
def c1Node : Node := ⟨1, "n1", "10.0.0.1", "AA:BB:CC:DD:EE:FF", "c"⟩

/-- Live peer map for the C1 counterexample: the node is online. -/
def c1Edges : List (String × EdgeInfo) :=
  [("AABBCCDDEEFF", ⟨"AABBCCDDEEFF", "10.0.0.1", "1.2.3.4:7777", 5⟩)]

/-- Relay table for the C1 counterexample: a single pair with the node as
source, last active 1000 seconds before the read instant — far outside the
60-second staleness window. -/
def c1Relay : RelayMap :=
  [("AABBCCDDEEFF->112233445566", ⟨"AABBCCDDEEFF", "112233445566", 0, 3⟩)]

/-- Read instant of the C1 counterexample. -/
def c1Now : Time := 1000000000000

/-- Counterexample to C1 as stated: every pair in the relay table is stale
at the read instant, so the claim predicts connection type `P2P` for the
node — but `getNodes` never consults the pair ages (nor the destination
side) and annotates the node `Relay`. -/
theorem getNodes_relay_counterexample :
    (getNodes [c1Node] c1Edges c1Relay geoZero).map NodeView.conn_type = ["Relay"] ∧
    (∀ e ∈ c1Relay, staleWindow ≤ c1Now - e.2.lastActive) ∧
    specRelayConnType c1Now c1Relay (canonMac c1Node.macAddress) = "P2P" := by
  refine ⟨by decide, by decide, by decide⟩

/-- Nodes for the C7 counterexample: one parsable and one unparsable
virtual address. -/
def c7NodeA : Node := ⟨1, "n1", "10.0.0.1", "AA:BB:CC:DD:EE:01", "c"⟩

/-- Second node of the C7 counterexample, with unparsable address `!`. -/
def c7NodeB : Node := ⟨2, "n2", "!", "AA:BB:CC:DD:EE:02", "c"⟩

/-- Counterexample to C7 as stated: the entry with unparsable virtual
address `!` sorts before the parsable `10.0.0.1` (the comparator falls
back to plain string comparison whenever either side fails to parse, and
`!` precedes `1` bytewise), so unparsable entries do not sort after all
parsable ones. -/
theorem getNodes_sort_counterexample :
    (getNodes [c7NodeA, c7NodeB] [] [] geoZero).map NodeView.ip_address = ["!", "10.0.0.1"] ∧
    parseIP "!" = none ∧
    (parseIP "10.0.0.1").isSome = true := by
  refine ⟨by decide, by decide, by decide⟩

/-! ## Sorting lemmas for the aggregator -/

theorem insRev_perm {α : Type} (less : α → α → Bool) (x : α) :
    ∀ l : List α, (insRev less x l).Perm (x :: l) := by
  intro l
  induction l with
  | nil => exact List.Perm.refl _
  | cons y ys ih =>
    cases h : less x y with
    | true =>
      simp only [insRev, h, if_true]
      exact (ih.cons y).trans (List.Perm.swap x y ys)
    | false =>
      simp only [insRev, h, if_false]
      exact List.Perm.refl _

theorem foldl_insRev_perm {α : Type} (less : α → α → Bool) :
    ∀ (l r : List α), (l.foldl (fun r x => insRev less x r) r).Perm (l ++ r) := by
  intro l
  induction l with
  | nil => intro r; exact List.Perm.refl _
  | cons x xs ih =>
    intro r
    have h1 := ih (insRev less x r)
    have h2 : (xs ++ insRev less x r).Perm (xs ++ (x :: r)) :=
      List.Perm.append_left xs (insRev_perm less x r)
    have h3 : (xs ++ (x :: r)).Perm (x :: (xs ++ r)) := List.perm_middle
    exact (h1.trans h2).trans h3

theorem goSort_perm {α : Type} (less : α → α → Bool) (l : List α) :
    (goSort less l).Perm l := by
  unfold goSort
  have h1 := (List.reverse_perm (l.foldl (fun r x => insRev less x r) [])).trans
    (foldl_insRev_perm less l [])
  simpa using h1

theorem mem_goSort {α : Type} (less : α → α → Bool) (l : List α) (a : α) :
    a ∈ goSort less l ↔ a ∈ l :=
  (goSort_perm less l).mem_iff

theorem chain'_insRev {α : Type} (less : α → α → Bool) (x : α) :
    ∀ l : List α, (∀ y ∈ l, less x y = true → less y x = false) →
      List.Chain' (fun a b => less a b = false) l →
      List.Chain' (fun a b => less a b = false) (insRev less x l) := by
  intro l
  induction l with
  | nil => intro _ _; simp [insRev]
  | cons y ys ih =>
    intro hasym hch
    by_cases h : less x y = true
    · simp only [insRev, if_pos h]
      have hch2 : List.Chain' (fun a b => less a b = false) ys := hch.tail
      have hIH := ih (fun z hz => hasym z (List.mem_cons_of_mem y hz)) hch2
      rw [List.chain'_cons']
      refine ⟨?_, hIH⟩
      intro z hz
      cases ys with
      | nil =>
        simp only [insRev, List.head?_cons, Option.mem_def, Option.some.injEq] at hz
        rw [← hz]
        exact hasym y (List.mem_cons_self _ _) h
      | cons w ws =>
        by_cases hw : less x w = true
        · simp only [insRev, if_pos hw, List.head?_cons, Option.mem_def,
            Option.some.injEq] at hz
          rw [← hz]
          exact (List.chain'_cons.mp hch).1
        · simp only [insRev, if_neg hw, List.head?_cons, Option.mem_def,
            Option.some.injEq] at hz
          rw [← hz]
          exact hasym y (List.mem_cons_self _ _) h
    · simp only [insRev, if_neg h]
      have hxy : less x y = false := by
        simpa using h
      exact List.chain'_cons.mpr ⟨hxy, hch⟩

theorem chain'_foldl_insRev {α : Type} (less : α → α → Bool) :
    ∀ (l r : List α),
      (∀ a, (a ∈ l ∨ a ∈ r) → ∀ b, (b ∈ l ∨ b ∈ r) → less a b = true → less b a = false) →
      List.Chain' (fun a b => less a b = false) r →
      List.Chain' (fun a b => less a b = false) (l.foldl (fun r x => insRev less x r) r) := by
  intro l
  induction l with
  | nil => intro r _ hch; exact hch
  | cons x xs ih =>
    intro r H hch
    have hmemr : ∀ a ∈ insRev less x r, a = x ∨ a ∈ r := by
      intro a ha
      have := (insRev_perm less x r).mem_iff.mp ha
      exact List.mem_cons.mp this
    apply ih (insRev less x r)
    · intro a ha b hb
      apply H
      · rcases ha with ha | ha
        · exact Or.inl (List.mem_cons_of_mem x ha)
        · rcases hmemr a ha with rfl | ha2
          · exact Or.inl (List.mem_cons_self _ _)
          · exact Or.inr ha2
      · rcases hb with hb | hb
        · exact Or.inl (List.mem_cons_of_mem x hb)
        · rcases hmemr b hb with rfl | hb2
          · exact Or.inl (List.mem_cons_self _ _)
          · exact Or.inr hb2
    · apply chain'_insRev less x r ?_ hch
      intro y hy
      exact H x (Or.inl (List.mem_cons_self _ _)) y (Or.inr hy)

theorem goSort_chain' {α : Type} (less : α → α → Bool) (l : List α)
    (H : ∀ a ∈ l, ∀ b ∈ l, less a b = true → less b a = false) :
    List.Chain' (fun a b => less b a = false) (goSort less l) := by
  unfold goSort
  rw [List.chain'_reverse]
  have := chain'_foldl_insRev less l []
  apply this
  · intro a ha b hb
    rcases ha with ha | ha
    · rcases hb with hb | hb
      · exact H a ha b hb
      · cases hb
    · cases ha
  · exact List.chain'_nil

theorem CompareIP_asymm : ∀ x y : List Nat, CompareIP x y < 0 → ¬ CompareIP y x < 0
  | [], [] => by simp [CompareIP]
  | [], _ :: _ => by simp [CompareIP]
  | _ :: _, [] => by simp [CompareIP]
  | a :: as, b :: bs => by
    intro h
    by_cases hab : a < b
    · simp only [CompareIP, if_neg (by omega : ¬ b < a), if_pos hab]
      omega
    · by_cases hba : b < a
      · simp only [CompareIP, if_pos hab] at h
        simp only [if_pos hba] at h
        omega
      · simp only [CompareIP, if_neg hab, if_neg hba] at h
        simp only [CompareIP, if_neg hba, if_neg hab]
        exact CompareIP_asymm as bs h

theorem nodeLess_asymm_of_parse (a b : NodeView)
    (ha : (parseIP a.ip_address).isSome = true) (hb : (parseIP b.ip_address).isSome = true) :
    nodeLess a b = true → nodeLess b a = false := by
  intro h
  rcases hx : parseIP a.ip_address with _ | x
  · rw [hx] at ha; cases ha
  rcases hy : parseIP b.ip_address with _ | y
  · rw [hy] at hb; cases hb
  unfold nodeLess at h ⊢
  rw [hx, hy] at h ⊢
  simp only [decide_eq_true_eq] at h
  simpa using CompareIP_asymm x y h

/-- C1 as amended: a persisted node whose canonical hardware address
matches a live peer key is marked online, and its connection type is
`Relay` exactly when that canonical address appears as the source side of
some key currently in the relay table — with no staleness filtering and
with the destination side never consulted; otherwise it is `P2P`. -/
theorem getNodes_online_marking (nodes : List Node) (edges : List (String × EdgeInfo))
    (relayMap : RelayMap) (geo : String → IPLocation) (n : Node) (info : EdgeInfo)
    (hn : n ∈ nodes) (hinfo : lookupA (canonMac n.macAddress) edges = some info) :
    ∃ v ∈ getNodes nodes edges relayMap geo,
      v.mac_address = n.macAddress ∧ v.is_online = true ∧
      v.conn_type =
        (if (activeRelaySrcs relayMap).contains (canonMac n.macAddress)
          then "Relay" else "P2P") := by
  refine ⟨mappedView edges (activeRelaySrcs relayMap) geo n, ?_, ?_, ?_, ?_⟩
  · unfold getNodes
    rw [mem_goSort]
    exact List.mem_append_left _ (List.mem_map_of_mem _ hn)
  · simp [mappedView, hinfo]
  · simp [mappedView, hinfo]
  · simp [mappedView, hinfo]

/-- Witness for the amended C1: the concrete node of the counterexample is
online and annotated `Relay` because its address is the source of a relay
key. -/
theorem getNodes_online_marking_witness :
    ∃ v ∈ getNodes [c1Node] c1Edges c1Relay geoZero,
      v.mac_address = c1Node.macAddress ∧ v.is_online = true ∧
      v.conn_type =
        (if (activeRelaySrcs c1Relay).contains (canonMac c1Node.macAddress)
          then "Relay" else "P2P") :=
  getNodes_online_marking [c1Node] c1Edges c1Relay geoZero c1Node
    ⟨"AABBCCDDEEFF", "10.0.0.1", "1.2.3.4:7777", 5⟩ (by decide) (by decide)

/-- C7 as amended: when every entry of the produced list has a parsable
virtual address, adjacent entries are in ascending numeric order under the
source comparator; when unparsable addresses are present the comparator
falls back to bytewise string comparison for any pair involving one, so
unparsable entries need not sort after the parsable ones. -/
theorem getNodes_sorted_amended (nodes : List Node) (edges : List (String × EdgeInfo))
    (relayMap : RelayMap) (geo : String → IPLocation)
    (H : ∀ v ∈ getNodes nodes edges relayMap geo, (parseIP v.ip_address).isSome = true) :
    List.Chain' (fun a b => nodeLess b a = false) (getNodes nodes edges relayMap geo) := by
  unfold getNodes at H ⊢
  apply goSort_chain'
  intro a ha b hb
  exact nodeLess_asymm_of_parse a b
    (H a ((mem_goSort nodeLess _ a).mpr ha))
    (H b ((mem_goSort nodeLess _ b).mpr hb))

/-- Nodes for the C7 witness (the spec's numeric-versus-lexicographic
example: `10.0.0.2`, `10.0.0.10`, `10.0.0.1`). -/
def wSortNodes : List Node :=
  [⟨1, "n1", "10.0.0.2", "AA:BB:CC:DD:EE:01", "c"⟩,
   ⟨2, "n2", "10.0.0.10", "AA:BB:CC:DD:EE:02", "c"⟩,
   ⟨3, "n3", "10.0.0.1", "AA:BB:CC:DD:EE:03", "c"⟩]

/-- Witness for the amended C7 at the spec's own three-address example. -/
theorem getNodes_sorted_amended_witness :
    List.Chain' (fun a b => nodeLess b a = false) (getNodes wSortNodes [] [] geoZero) :=
  getNodes_sorted_amended wSortNodes [] [] geoZero (by decide)

/-! ## Claim C3: lockout on reaching the threshold, lazy reset on expiry -/

theorem failStep_lookup_self (now : Time) (k : String) (s : LoginMap) :
    lookupA k (failStep now k s).1 = some (steppedAttempt now ((lookupA k s).getD zeroAttempt)) := by
  unfold failStep
  exact lookupA_updateA_self k _ s

theorem failStep_lookup_ne (now : Time) (k k' : String) (s : LoginMap) (hne : k' ≠ k) :
    lookupA k' (failStep now k s).1 = lookupA k' s := by
  unfold failStep
  exact lookupA_updateA_ne k k' _ hne s

theorem steppedAttempt_lockUntil (now : Time) (b : LoginAttempt)
    (h : maxLoginAttempts ≤ (steppedAttempt now b).failCount) :
    (steppedAttempt now b).lockUntil = now + lockDuration := by
  unfold steppedAttempt at h ⊢
  by_cases hc : maxLoginAttempts ≤ b.failCount + 1
  · rw [if_pos hc]
  · rw [if_neg hc] at h
    exact absurd h hc

theorem recordLoginFail_lookup_stepped (s : LoginMap) (ip user : String) (now : Time)
    (k : String) (hk : k = ip ∨ k = "user:" ++ user) :
    ∃ b, lookupA k (recordLoginFail ip user now s).2.2 = some (steppedAttempt now b) := by
  unfold recordLoginFail
  rcases hk with rfl | rfl
  · by_cases he : k = "user:" ++ user
    · rw [he]
      exact ⟨_, failStep_lookup_self now _ _⟩
    · rw [failStep_lookup_ne now _ _ _ he]
      exact ⟨_, failStep_lookup_self now _ _⟩
  · exact ⟨_, failStep_lookup_self now _ _⟩

/-- C3: when a `recordLoginFail` call leaves a key (either the client
address or the `user:`-prefixed account key) with a failure count at or
above the threshold, an immediate `checkLoginLock` on that key reports
locked with remaining time exactly `lockDuration`; and at any instant from
`now + lockDuration` on, `checkLoginLock` reports unlocked with zero
remaining time and resets that key's failure counter to zero without
deleting the record. -/
theorem recordLoginFail_then_checkLoginLock (s : LoginMap) (ip user : String) (now : Time)
    (k : String) (a : LoginAttempt) (hk : k = ip ∨ k = "user:" ++ user)
    (hlook : lookupA k (recordLoginFail ip user now s).2.2 = some a)
    (hcount : maxLoginAttempts ≤ a.failCount) :
    checkLoginLock k now (recordLoginFail ip user now s).2.2
      = (true, lockDuration, (recordLoginFail ip user now s).2.2) ∧
    ∀ later : Time, now + lockDuration ≤ later →
      (checkLoginLock k later (recordLoginFail ip user now s).2.2).1 = false ∧
      (checkLoginLock k later (recordLoginFail ip user now s).2.2).2.1 = 0 ∧
      lookupA k (checkLoginLock k later (recordLoginFail ip user now s).2.2).2.2
        = some { a with failCount := 0 } := by
  obtain ⟨b, hb⟩ := recordLoginFail_lookup_stepped s ip user now k hk
  have hab : a = steppedAttempt now b := by
    rw [hlook] at hb
    exact Option.some.inj hb
  have halock : a.lockUntil = now + lockDuration := by
    rw [hab]
    exact steppedAttempt_lockUntil now b (by rw [← hab]; exact hcount)
  have hdurpos : (0 : Int) < lockDuration := by decide
  constructor
  · have hlt : now < a.lockUntil := by
      rw [halock]
      exact lt_add_of_pos_right now hdurpos
    simp only [checkLoginLock, hlook]
    rw [if_pos hlt, halock]
    have hsub : now + lockDuration - now = lockDuration := by ring
    rw [hsub]
  · intro later hlater
    have hnlt : ¬ later < a.lockUntil := by
      rw [halock]
      exact not_lt.mpr hlater
    simp only [checkLoginLock, hlook]
    rw [if_neg hnlt, if_pos hcount]
    exact ⟨rfl, rfl, lookupA_updateA_self k _ _⟩

/-- Table before the witness call for C3: the client address already has
four failures. -/
def wC3Pre : LoginMap := [("7.7.7.7", ⟨4, 0, 0⟩)]

/-- Table after the fifth failure at instant 100. -/
def wC3After : LoginMap := (recordLoginFail "7.7.7.7" "alice" 100 wC3Pre).2.2

/-- Attempt record the witness key holds after the fifth failure. -/
def wC3Attempt : LoginAttempt := ⟨5, 100 + lockDuration, 100⟩

/-- Witness for C3 at a concrete fifth failure and at the exact expiry
instant. -/
theorem recordLoginFail_then_checkLoginLock_witness :
    checkLoginLock "7.7.7.7" 100 wC3After = (true, lockDuration, wC3After) ∧
    (checkLoginLock "7.7.7.7" (100 + lockDuration) wC3After).1 = false ∧
    (checkLoginLock "7.7.7.7" (100 + lockDuration) wC3After).2.1 = 0 ∧
    lookupA "7.7.7.7" (checkLoginLock "7.7.7.7" (100 + lockDuration) wC3After).2.2
      = some { wC3Attempt with failCount := 0 } := by
  have h := recordLoginFail_then_checkLoginLock wC3Pre "7.7.7.7" "alice" 100 "7.7.7.7"
    wC3Attempt (Or.inl rfl) (by decide) (by decide)
  exact ⟨h.1, (h.2 (100 + lockDuration) (le_refl _)).1,
    (h.2 (100 + lockDuration) (le_refl _)).2.1,
    (h.2 (100 + lockDuration) (le_refl _)).2.2⟩

/-! ## Claim C5: GeoIP cache size cap and oldest-entry eviction -/

theorem geoLookup_length_le (ip : String) (oracle : LookupResult) (now : Time) (cap : Nat)
    (c : IPCache) (hcap : 1 ≤ cap) (hlen : c.length ≤ cap) :
    ((geoLookup ip oracle now cap c).2).length ≤ cap := by
  unfold geoLookup
  cases oracle with
  | netError => exact hlen
  | badResponse => exact hlen
  | ok loc =>
    by_cases hfull : cap ≤ c.length
    · rcases hk : findOldestBy (fun e => e.createdAt) c with _ | k
      · exfalso
        have hne : c ≠ [] := by
          intro h
          rw [h] at hfull
          simp at hfull
          omega
        have hsome := findOldestBy_isSome (fun e => e.createdAt) c hne
        rw [hk] at hsome
        cases hsome
      · have hmem := findOldestBy_mem (fun e => e.createdAt) c k hk
        have herase := length_eraseA_lt k c hmem
        simp only [hk, if_pos hfull, List.length_append, List.length_cons, List.length_nil]
        omega
    · simp only [if_neg hfull, List.length_append, List.length_cons, List.length_nil]
      omega

theorem getIPLocation_length_le (ip : String) (oracle : LookupResult) (now ttl : Time)
    (cap : Nat) (cache : IPCache) (hcap : 1 ≤ cap) (hlen : cache.length ≤ cap) :
    ((getIPLocation ip oracle now ttl cap cache).2).length ≤ cap := by
  unfold getIPLocation
  by_cases hloc : isLocalIP ip = true
  · rw [if_pos hloc]
    exact hlen
  · rw [if_neg hloc]
    rcases he : lookupA ip cache with _ | e
    · exact geoLookup_length_le ip oracle now cap cache hcap hlen
    · show ((if now - e.createdAt < ttl then (e.location, cache)
        else geoLookup ip oracle now cap (eraseA ip cache)).2).length ≤ cap
      by_cases hfresh : now - e.createdAt < ttl
      · rw [if_pos hfresh]
        exact hlen
      · rw [if_neg hfresh]
        exact geoLookup_length_le ip oracle now cap (eraseA ip cache) hcap
          (le_trans (length_eraseA_le ip cache) hlen)

/-- C5: for every request sequence the GeoIP cache never exceeds the
configured cap (at least 1; the source default is 1000), and whenever an
insertion happens while the cache is at capacity, the single entry removed
before the insert is one with the smallest creation timestamp among the
entries present at that moment. -/
theorem getIPLocation_cache_invariants (ttl : Time) (cap : Nat) (hcap : 1 ≤ cap) :
    (∀ reqs : List (String × LookupResult × Time), ((runGeo ttl cap reqs []).length ≤ cap)) ∧
    (∀ (ip : String) (loc : IPLocation) (now : Time) (c : IPCache), cap ≤ c.length →
      ∃ k b, findOldestBy (fun e => e.createdAt) c = some k ∧ (k, b) ∈ c ∧
        (∀ e ∈ c, b.createdAt ≤ e.2.createdAt) ∧
        (geoLookup ip (.ok loc) now cap c).2 = eraseA k c ++ [(ip, ⟨loc, now⟩)]) := by
  constructor
  · have hrun : ∀ (reqs : List (String × LookupResult × Time)) (c : IPCache),
        c.length ≤ cap → (runGeo ttl cap reqs c).length ≤ cap := by
      intro reqs
      induction reqs with
      | nil => intro c hc; exact hc
      | cons r rest ih =>
        intro c hc
        exact ih _ (getIPLocation_length_le r.1 r.2.1 r.2.2 ttl cap c hcap hc)
    intro reqs
    exact hrun reqs [] (by simp)
  · intro ip loc now c hfull
    have hne : c ≠ [] := by
      intro h
      rw [h] at hfull
      simp at hfull
      omega
    rcases hk : findOldestBy (fun e => e.createdAt) c with _ | k
    · exfalso
      have hsome := findOldestBy_isSome (fun e => e.createdAt) c hne
      rw [hk] at hsome
      cases hsome
    · obtain ⟨b, hmem, hmin⟩ := findOldestBy_min (fun e => e.createdAt) c k hk
      refine ⟨k, b, hk, hmem, hmin, ?_⟩
      unfold geoLookup
      simp only [hk, if_pos hfull]

/-- Requests for the C5 witness: three distinct public addresses resolved
successfully under a cap of 2, forcing one eviction. -/
def wGeoReqs : List (String × LookupResult × Time) :=
  [("1.1.1.1", .ok ⟨"AU", "S", "C"⟩, 10),
   ("2.2.2.2", .ok ⟨"FR", "P", "O"⟩, 20),
   ("3.3.3.3", .ok ⟨"DE", "B", "T"⟩, 30)]

/-- Cache at capacity 2 for the C5 witness; the second entry is the oldest. -/
def wGeoCache : IPCache :=
  [("1.1.1.1", ⟨⟨"AU", "S", "C"⟩, 10⟩), ("2.2.2.2", ⟨⟨"FR", "P", "O"⟩, 5⟩)]

/-- Witness for C5 with cap 2: the run stays within the cap and the
at-capacity insert evicts an oldest entry. -/
theorem getIPLocation_cache_invariants_witness :
    (runGeo 1000 2 wGeoReqs []).length ≤ 2 ∧
    (∃ k b, findOldestBy (fun e => e.createdAt) wGeoCache = some k ∧ (k, b) ∈ wGeoCache ∧
      (∀ e ∈ wGeoCache, b.createdAt ≤ e.2.createdAt) ∧
      (geoLookup "9.9.9.9" (.ok ⟨"JP", "T", "N"⟩) 50 2 wGeoCache).2
        = eraseA k wGeoCache ++ [("9.9.9.9", ⟨⟨"JP", "T", "N"⟩, 50⟩)]) :=
  ⟨(getIPLocation_cache_invariants 1000 2 (by decide)).1 wGeoReqs,
   (getIPLocation_cache_invariants 1000 2 (by decide)).2 "9.9.9.9" ⟨"JP", "T", "N"⟩ 50
     wGeoCache (by decide)⟩

/-! ## Claim C2: size of the login-attempt table -/

theorem evictOldest_length :
    ∀ (fuel : Nat) (s : LoginMap),
      (evictOldest fuel s).length ≤ max (s.length - fuel) (maxLoginRecords - 1) := by
  intro fuel
  induction fuel with
  | zero =>
    intro s
    simp only [evictOldest, Nat.sub_zero]
    exact le_max_left _ _
  | succ fuel ih =>
    intro s
    by_cases hc : maxLoginRecords ≤ s.length
    · rcases hk : findOldestBy (fun a => a.lastFail) s with _ | k
      · exfalso
        have hne : s ≠ [] := by
          intro h
          rw [h] at hc
          simp at hc
          have : (1 : Nat) ≤ maxLoginRecords := by decide
          omega
        have hsome := findOldestBy_isSome (fun a => a.lastFail) s hne
        rw [hk] at hsome
        cases hsome
      · have hmem := findOldestBy_mem (fun a => a.lastFail) s k hk
        have herase := length_eraseA_lt k s hmem
        have hstep : evictOldest (fuel + 1) s = evictOldest fuel (eraseA k s) := by
          simp only [evictOldest, if_pos hc, hk]
        rw [hstep]
        have hb := ih (eraseA k s)
        have hle : (eraseA k s).length - fuel ≤ s.length - (fuel + 1) := by omega
        exact le_trans hb (max_le_max hle (le_refl _))
    · have hstep : evictOldest (fuel + 1) s = s := by
        simp only [evictOldest, if_neg hc]
      rw [hstep]
      have : s.length ≤ maxLoginRecords - 1 := by omega
      exact le_trans this (le_max_right _ _)

theorem failStep_length (now : Time) (k : String) (s : LoginMap) :
    (failStep now k s).1.length ≤ s.length + 1 := by
  unfold failStep
  exact length_updateA_le k _ s

/-- Table size produced by one `recordLoginFail` call, for any starting
table: at most `maxLoginRecords + 1`.  A call that begins at or above the
cap first purges and then evicts oldest entries until strictly below the
cap (so to at most 9999 entries) and only then inserts its two keys. -/
theorem recordLoginFail_length (ip user : String) (now : Time) (s : LoginMap) :
    (recordLoginFail ip user now s).2.2.length ≤ maxLoginRecords + 1 := by
  have hstate : (recordLoginFail ip user now s).2.2
      = (failStep now ("user:" ++ user)
          (failStep now ip
            (if maxLoginRecords ≤ s.length then
              evictOldest (purgeStale now s).length (purgeStale now s)
            else s)).1).1 := rfl
  have hpre : (if maxLoginRecords ≤ s.length then
      evictOldest (purgeStale now s).length (purgeStale now s)
    else s).length ≤ maxLoginRecords - 1 := by
    by_cases hc : maxLoginRecords ≤ s.length
    · rw [if_pos hc]
      have hb := evictOldest_length (purgeStale now s).length (purgeStale now s)
      simpa using hb
    · rw [if_neg hc]
      omega
  have h1 := failStep_length now ip
    (if maxLoginRecords ≤ s.length then
      evictOldest (purgeStale now s).length (purgeStale now s) else s)
  have h2 := failStep_length now ("user:" ++ user)
    (failStep now ip (if maxLoginRecords ≤ s.length then
      evictOldest (purgeStale now s).length (purgeStale now s) else s)).1
  have hmr : (1 : Nat) ≤ maxLoginRecords := by decide
  rw [hstate]
  omega

/-- Fold bound: any call sequence starting from the empty table ends with
at most `maxLoginRecords + 1` tracked keys. -/
theorem runLoginFails_length :
    ∀ calls : List (String × String × Time), (runLoginFails calls []).length ≤ maxLoginRecords + 1 := by
  have haux : ∀ (calls : List (String × String × Time)) (s : LoginMap),
      s.length ≤ maxLoginRecords + 1 →
      (runLoginFails calls s).length ≤ maxLoginRecords + 1 := by
    intro calls
    induction calls with
    | nil => intro s hs; exact hs
    | cons c rest ih =>
      intro s _
      exact ih _ (recordLoginFail_length c.1 c.2.1 c.2.2 s)
  intro calls
  exact haux calls [] (by simp)

/-- Client-address key used by the i-th call of the C2 counterexample
sequence: the string of i+1 letters `a`. -/
def ipK (i : Nat) : String := String.mk (List.replicate (i + 1) 'a')

/-- Account name used by the i-th call: the string of i+1 letters `b`. -/
def userK (i : Nat) : String := String.mk (List.replicate (i + 1) 'b')

/-- Account key stored by the i-th call, `"user:" ++ userK i` in explicit
character form. -/
def ukey (i : Nat) : String :=
  String.mk ('u' :: 's' :: 'e' :: 'r' :: ':' :: List.replicate (i + 1) 'b')

/-- Attempt record created by a single failure at instant 0. -/
def attempt1 : LoginAttempt := ⟨1, 0, 0⟩

/-- Expected table segment: the 2n entries inserted by calls i, i+1, ...,
i+n-1 of the counterexample sequence, in insertion order. -/
def expSeg : Nat → Nat → LoginMap
  | _, 0 => []
  | i, n + 1 => (ipK i, attempt1) :: (ukey i, attempt1) :: expSeg (i + 1) n

/-- Table after n calls of the counterexample sequence: call i records a
failure for client address `ipK i` and account `userK i`, all at instant 0. -/
def seqState : Nat → LoginMap
  | 0 => []
  | n + 1 => (recordLoginFail (ipK n) (userK n) 0 (seqState n)).2.2

theorem ukey_eq (i : Nat) : "user:" ++ userK i = ukey i := rfl

theorem ipK_data (i : Nat) : (ipK i).data = 'a' :: List.replicate i 'a' := by
  simp [ipK, List.replicate_succ]

theorem ukey_data (i : Nat) :
    (ukey i).data = 'u' :: 's' :: 'e' :: 'r' :: ':' :: List.replicate (i + 1) 'b' := rfl

theorem ipK_inj {i j : Nat} (h : ipK i = ipK j) : i = j := by
  have hl := congrArg (fun s => s.data.length) h
  simp [ipK] at hl
  exact hl

theorem ukey_inj {i j : Nat} (h : ukey i = ukey j) : i = j := by
  have hl := congrArg (fun s => s.data.length) h
  simp [ukey] at hl
  exact hl

theorem ipK_ne_ukey (i j : Nat) : ipK i ≠ ukey j := by
  intro h
  have hd := congrArg String.data h
  rw [ipK_data, ukey_data] at hd
  cases hd

theorem keys_expSeg :
    ∀ (n i : Nat) (k : String), k ∈ (expSeg i n).map Prod.fst →
      ∃ j, i ≤ j ∧ j < i + n ∧ (k = ipK j ∨ k = ukey j) := by
  intro n
  induction n with
  | zero => intro i k h; cases h
  | succ n ih =>
    intro i k h
    simp only [expSeg, List.map_cons, List.mem_cons] at h
    rcases h with h | h | h
    · exact ⟨i, le_refl i, by omega, Or.inl h⟩
    · exact ⟨i, le_refl i, by omega, Or.inr h⟩
    · obtain ⟨j, hj1, hj2, hj3⟩ := ih (i + 1) k h
      exact ⟨j, by omega, by omega, hj3⟩

theorem ipK_not_mem_keys (n i m : Nat) (h : m < i ∨ i + n ≤ m) :
    ipK m ∉ (expSeg i n).map Prod.fst := by
  intro hmem
  obtain ⟨j, hj1, hj2, hj3⟩ := keys_expSeg n i (ipK m) hmem
  rcases hj3 with hj3 | hj3
  · have := ipK_inj hj3
    omega
  · exact ipK_ne_ukey m j hj3

theorem ukey_not_mem_keys (n i m : Nat) (h : m < i ∨ i + n ≤ m) :
    ukey m ∉ (expSeg i n).map Prod.fst := by
  intro hmem
  obtain ⟨j, hj1, hj2, hj3⟩ := keys_expSeg n i (ukey m) hmem
  rcases hj3 with hj3 | hj3
  · exact ipK_ne_ukey j m hj3.symm
  · have := ukey_inj hj3
    omega

theorem length_expSeg : ∀ n i : Nat, (expSeg i n).length = 2 * n := by
  intro n
  induction n with
  | zero => intro i; rfl
  | succ n ih =>
    intro i
    simp only [expSeg, List.length_cons, ih (i + 1)]
    omega

theorem expSeg_snd : ∀ (n i : Nat), ∀ e ∈ expSeg i n, e.2 = attempt1 := by
  intro n
  induction n with
  | zero => intro i e h; cases h
  | succ n ih =>
    intro i e h
    simp only [expSeg, List.mem_cons] at h
    rcases h with h | h | h
    · rw [h]
    · rw [h]
    · exact ih (i + 1) e h

theorem expSeg_append :
    ∀ (n i : Nat), expSeg i (n + 1)
      = expSeg i n ++ [(ipK (i + n), attempt1), (ukey (i + n), attempt1)] := by
  intro n
  induction n with
  | zero =>
    intro i
    simp [expSeg]
  | succ n ih =>
    intro i
    have hstep : expSeg i (n + 2)
        = (ipK i, attempt1) :: (ukey i, attempt1) :: expSeg (i + 1) (n + 1) := rfl
    rw [hstep, ih (i + 1)]
    have harith : i + 1 + n = i + (n + 1) := by omega
    rw [harith]
    rfl

theorem failStep_fst (now : Time) (k : String) (s : LoginMap) :
    (failStep now k s).1 = updateA k (steppedAttempt now ((lookupA k s).getD zeroAttempt)) s := rfl

theorem steppedAttempt_zero : steppedAttempt 0 zeroAttempt = attempt1 := rfl

theorem eraseA_head_self {β : Type} (k : String) (v : β) (l : List (String × β)) :
    eraseA k ((k, v) :: l) = eraseA k l := by
  simp [eraseA, List.filter_cons]

theorem eraseA_cons_ne {β : Type} (k : String) (e : String × β) (l : List (String × β))
    (h : e.1 ≠ k) : eraseA k (e :: l) = e :: eraseA k l := by
  simp [eraseA, List.filter_cons, h]

theorem eraseA_not_mem {β : Type} (k : String) (l : List (String × β))
    (h : k ∉ l.map Prod.fst) : eraseA k l = l := by
  apply List.filter_eq_self.mpr
  intro e he
  simp only [ne_eq, decide_eq_true_eq]
  intro hek
  exact h (hek ▸ List.mem_map_of_mem Prod.fst he)

theorem foldl_oldStep_keep {β : Type} (f : β → Time) :
    ∀ (l : List (String × β)) (k : String) (t : Time),
      (∀ e ∈ l, ¬ f e.2 < t) → l.foldl (oldStep f) (some (k, t)) = some (k, t) := by
  intro l
  induction l with
  | nil => intro k t _; rfl
  | cons e rest ih =>
    intro k t h
    have he : ¬ f e.2 < t := h e (List.mem_cons_self _ _)
    have hstep : oldStep f (some (k, t)) e = some (k, t) := by
      simp [oldStep, he]
    show rest.foldl (oldStep f) (oldStep f (some (k, t)) e) = some (k, t)
    rw [hstep]
    exact ih k t (fun x hx => h x (List.mem_cons_of_mem e hx))

theorem findOldestBy_all_eq {β : Type} (f : β → Time) (c : Time) (e : String × β)
    (l : List (String × β)) (h : ∀ x ∈ e :: l, f x.2 = c) :
    findOldestBy f (e :: l) = some e.1 := by
  unfold findOldestBy
  have hstep : oldStep f none e = some (e.1, f e.2) := rfl
  show (List.foldl (oldStep f) none (e :: l)).map Prod.fst = some e.1
  rw [List.foldl_cons, hstep, h e (List.mem_cons_self _ _)]
  rw [foldl_oldStep_keep f l e.1 c ?_]
  · rfl
  · intro x hx
    rw [h x (List.mem_cons_of_mem e hx)]
    exact lt_irrefl c

theorem purgeStale_attempt1 (s : LoginMap) (h : ∀ e ∈ s, e.2 = attempt1) :
    purgeStale 0 s = s := by
  apply List.filter_eq_self.mpr
  intro e he
  rw [h e he]
  decide

theorem expSeg_lastFail (n i : Nat) : ∀ x ∈ expSeg i n, x.2.lastFail = 0 := by
  intro x hx
  rw [expSeg_snd n i x hx]
  rfl

theorem recordLoginFail_fresh_step (n : Nat) (h : 2 * n < maxLoginRecords) :
    (recordLoginFail (ipK n) (userK n) 0 (expSeg 0 n)).2.2 = expSeg 0 (n + 1) := by
  have hnotip : ipK n ∉ (expSeg 0 n).map Prod.fst :=
    ipK_not_mem_keys n 0 n (Or.inr (by omega))
  have hnotuk : ukey n ∉ (expSeg 0 n).map Prod.fst :=
    ukey_not_mem_keys n 0 n (Or.inr (by omega))
  have hlen : (expSeg 0 n).length = 2 * n := length_expSeg n 0
  have hno : ¬ maxLoginRecords ≤ (expSeg 0 n).length := by
    rw [hlen]; omega
  have hstate : (recordLoginFail (ipK n) (userK n) 0 (expSeg 0 n)).2.2
      = (failStep 0 (ukey n)
          (failStep 0 (ipK n)
            (if maxLoginRecords ≤ (expSeg 0 n).length then
              evictOldest (purgeStale 0 (expSeg 0 n)).length (purgeStale 0 (expSeg 0 n))
            else expSeg 0 n)).1).1 := rfl
  rw [hstate, if_neg hno]
  have hf1 : (failStep 0 (ipK n) (expSeg 0 n)).1 = expSeg 0 n ++ [(ipK n, attempt1)] := by
    rw [failStep_fst, lookupA_eq_none _ _ hnotip]
    show updateA (ipK n) (steppedAttempt 0 zeroAttempt) (expSeg 0 n) = _
    rw [steppedAttempt_zero]
    exact updateA_absent _ _ _ hnotip
  rw [hf1]
  have hnotuk2 : ukey n ∉ (expSeg 0 n ++ [(ipK n, attempt1)]).map Prod.fst := by
    simp only [List.map_append, List.mem_append, List.map_cons, List.map_nil,
      List.mem_cons, List.not_mem_nil]
    push_neg
    exact ⟨hnotuk, fun hh => ipK_ne_ukey n n hh.symm, fun hh => hh⟩
  have hf2 : (failStep 0 (ukey n) (expSeg 0 n ++ [(ipK n, attempt1)])).1
      = (expSeg 0 n ++ [(ipK n, attempt1)]) ++ [(ukey n, attempt1)] := by
    rw [failStep_fst, lookupA_eq_none _ _ hnotuk2]
    show updateA (ukey n) (steppedAttempt 0 zeroAttempt) _ = _
    rw [steppedAttempt_zero]
    exact updateA_absent _ _ _ hnotuk2
  rw [hf2, expSeg_append n 0, List.append_assoc]
  simp

theorem seqState_eq : ∀ n : Nat, n ≤ 5000 → seqState n = expSeg 0 n := by
  intro n
  induction n with
  | zero => intro _; rfl
  | succ n ih =>
    intro h
    have hM : maxLoginRecords = 10000 := rfl
    show (recordLoginFail (ipK n) (userK n) 0 (seqState n)).2.2 = _
    rw [ih (by omega)]
    exact recordLoginFail_fresh_step n (by omega)

theorem expSeg_cons (i n : Nat) :
    expSeg i (n + 1) = (ipK i, attempt1) :: (ukey i, attempt1) :: expSeg (i + 1) n := rfl

theorem seqState_succ (n : Nat) :
    seqState (n + 1) = (recordLoginFail (ipK n) (userK n) 0 (seqState n)).2.2 := rfl

theorem expSeg_5000_cons :
    expSeg 0 5000 = (ipK 0, attempt1) :: (ukey 0, attempt1) :: expSeg 1 4999 := by
  show expSeg 0 (4999 + 1) = _
  rw [expSeg_cons]

theorem eraseA_expSeg_5000 :
    eraseA (ipK 0) (expSeg 0 5000) = (ukey 0, attempt1) :: expSeg 1 4999 := by
  rw [expSeg_5000_cons, eraseA_head_self,
    eraseA_cons_ne _ _ _ (fun hh => ipK_ne_ukey 0 0 hh.symm),
    eraseA_not_mem _ _ (ipK_not_mem_keys 4999 1 0 (Or.inl (by omega)))]

theorem findOldest_expSeg_5000 :
    findOldestBy (fun a => a.lastFail) (expSeg 0 5000) = some (ipK 0) := by
  have hAll : ∀ x ∈ (ipK 0, attempt1) :: (ukey 0, attempt1) :: expSeg 1 4999,
      (fun a : LoginAttempt => a.lastFail) x.2 = 0 := by
    intro x hx
    rw [← expSeg_5000_cons] at hx
    exact expSeg_lastFail 5000 0 x hx
  have h := findOldestBy_all_eq (fun a => a.lastFail) 0 (ipK 0, attempt1)
    ((ukey 0, attempt1) :: expSeg 1 4999) hAll
  rw [expSeg_5000_cons]
  exact h

theorem evictOldest_succ_of_ge (fuel : Nat) (s : LoginMap) (k : String)
    (h : maxLoginRecords ≤ s.length) (hk : findOldestBy (fun a => a.lastFail) s = some k) :
    evictOldest (fuel + 1) s = evictOldest fuel (eraseA k s) := by
  simp only [evictOldest, if_pos h, hk]

theorem evictOldest_succ_of_lt (fuel : Nat) (s : LoginMap)
    (h : ¬ maxLoginRecords ≤ s.length) :
    evictOldest (fuel + 1) s = s := by
  simp only [evictOldest, if_neg h]

theorem evictOldest_expSeg_5000 :
    evictOldest 10000 (expSeg 0 5000) = (ukey 0, attempt1) :: expSeg 1 4999 := by
  have hlen : (expSeg 0 5000).length = 10000 := by
    rw [length_expSeg]
  have hyes : maxLoginRecords ≤ (expSeg 0 5000).length := by
    rw [hlen]
    decide
  have hlen2 : ((ukey 0, attempt1) :: expSeg 1 4999).length = 9999 := by
    rw [List.length_cons, length_expSeg]
  have hno : ¬ maxLoginRecords ≤ ((ukey 0, attempt1) :: expSeg 1 4999).length := by
    rw [hlen2]
    decide
  have e1 : evictOldest 10000 (expSeg 0 5000)
      = evictOldest 9999 ((ukey 0, attempt1) :: expSeg 1 4999) := by
    rw [← eraseA_expSeg_5000]
    exact evictOldest_succ_of_ge 9999 (expSeg 0 5000) (ipK 0) hyes findOldest_expSeg_5000
  have e2 : evictOldest 9999 ((ukey 0, attempt1) :: expSeg 1 4999)
      = (ukey 0, attempt1) :: expSeg 1 4999 :=
    evictOldest_succ_of_lt 9998 _ hno
  exact e1.trans e2

theorem recordLoginFail_eq_of_ge (ip username : String) (now : Time) (s : LoginMap)
    (h : maxLoginRecords ≤ s.length) :
    (recordLoginFail ip username now s).2.2
      = (failStep now ("user:" ++ username)
          (failStep now ip
            (evictOldest (purgeStale now s).length (purgeStale now s))).1).1 := by
  have hstate : (recordLoginFail ip username now s).2.2
      = (failStep now ("user:" ++ username)
          (failStep now ip
            (if maxLoginRecords ≤ s.length then
              evictOldest (purgeStale now s).length (purgeStale now s)
            else s)).1).1 := rfl
  rw [hstate, if_pos h]

theorem step_5000_state :
    (recordLoginFail (ipK 5000) (userK 5000) 0 (expSeg 0 5000)).2.2
      = ((ukey 0, attempt1) :: expSeg 1 4999)
          ++ [(ipK 5000, attempt1), (ukey 5000, attempt1)] := by
  have hlen : (expSeg 0 5000).length = 10000 := by
    rw [length_expSeg]
  have hyes : maxLoginRecords ≤ (expSeg 0 5000).length := by
    rw [hlen]
    decide
  have hpurge : purgeStale 0 (expSeg 0 5000) = expSeg 0 5000 :=
    purgeStale_attempt1 _ (expSeg_snd 5000 0)
  rw [recordLoginFail_eq_of_ge (ipK 5000) (userK 5000) 0 (expSeg 0 5000) hyes,
    hpurge, hlen, evictOldest_expSeg_5000, ukey_eq]
  have hnotip : ipK 5000 ∉ ((ukey 0, attempt1) :: expSeg 1 4999).map Prod.fst := by
    simp only [List.map_cons, List.mem_cons]
    push_neg
    exact ⟨ipK_ne_ukey 5000 0, ipK_not_mem_keys 4999 1 5000 (Or.inr (by omega))⟩
  have hf1 : (failStep 0 (ipK 5000) ((ukey 0, attempt1) :: expSeg 1 4999)).1
      = ((ukey 0, attempt1) :: expSeg 1 4999) ++ [(ipK 5000, attempt1)] := by
    rw [failStep_fst, lookupA_eq_none _ _ hnotip]
    show updateA (ipK 5000) (steppedAttempt 0 zeroAttempt) _ = _
    rw [steppedAttempt_zero]
    exact updateA_absent _ _ _ hnotip
  rw [hf1]
  have hnotuk : ukey 5000 ∉
      (((ukey 0, attempt1) :: expSeg 1 4999) ++ [(ipK 5000, attempt1)]).map Prod.fst := by
    simp only [List.map_append, List.mem_append, List.map_cons, List.map_nil,
      List.mem_cons, List.not_mem_nil]
    push_neg
    refine ⟨⟨fun hh => by have := ukey_inj hh; omega,
      ukey_not_mem_keys 4999 1 5000 (Or.inr (by omega))⟩,
      fun hh => ipK_ne_ukey 5000 5000 hh.symm, fun hh => hh⟩
  have hf2 : (failStep 0 (ukey 5000)
      (((ukey 0, attempt1) :: expSeg 1 4999) ++ [(ipK 5000, attempt1)])).1
      = (((ukey 0, attempt1) :: expSeg 1 4999) ++ [(ipK 5000, attempt1)])
          ++ [(ukey 5000, attempt1)] := by
    rw [failStep_fst, lookupA_eq_none _ _ hnotuk]
    show updateA (ukey 5000) (steppedAttempt 0 zeroAttempt) _ = _
    rw [steppedAttempt_zero]
    exact updateA_absent _ _ _ hnotuk
  rw [hf2, List.append_assoc]
  exact congrArg (fun t => ((ukey 0, attempt1) :: expSeg 1 4999) ++ t) rfl

/-- Counterexample to C2 as stated: under the cap of 10,000, calling
`recordLoginFail` with 5001 distinct client/account pairs (10,002 distinct
keys, all at the same instant) leaves the table with 10,001 tracked keys.
The call that starts at the cap evicts down to 9,999 entries and then
inserts its two keys, so the table exceeds the cap by one after the call
completes — and stays there. -/
theorem loginAttempts_cap_counterexample :
    (seqState 5001).length = 10001 ∧ maxLoginRecords < (seqState 5001).length := by
  have h1 : seqState 5001 = (recordLoginFail (ipK 5000) (userK 5000) 0 (seqState 5000)).2.2 := by
    show seqState (5000 + 1) = _
    rw [seqState_succ]
  have h2 : (seqState 5001).length = 10001 := by
    rw [h1, seqState_eq 5000 (le_refl _), step_5000_state, List.length_append,
      List.length_cons, length_expSeg]
    rfl
  refine ⟨h2, ?_⟩
  rw [h2]
  decide

/-- C2 as amended: the table can exceed the cap by exactly one entry but
never more — after any sequence of `recordLoginFail` calls starting from
the empty table, at most `maxLoginRecords + 1 = 10,001` keys are tracked
(in particular, inserting 10,050 distinct failing keys ends at 10,001, not
at or below 10,000). -/
theorem runLoginFails_cap_amended :
    ∀ calls : List (String × String × Time),
      (runLoginFails calls []).length ≤ maxLoginRecords + 1 :=
  runLoginFails_length

end N2N
